import Mathlib

/-!
# Verification of flashcard_generator.py

A shallow embedding of the flashcard generator tool: a script that reads a
list of pending vocabulary words, requests candidate flashcards for each
word from a language model (prefetching the next word's request while the
current word is reviewed), lets the user pick candidates with a compact
digit-selection string, writes chosen candidates into a collection, and
moves each decided word from the pending file to the done or skipped file.

Strings are modelled as lists of characters.  File contents are modelled as
the exact character sequence stored on disk.  Python primitives used by the
script (str.strip, str.split, file.readlines, str.isdigit, int(c)) are
embedded below; str.isdigit and int(c) are modelled on the ASCII digit
characters the selection prompt is about.  The nondeterministic parts
(set iteration order and random.shuffle) are modelled as relations.
The interactive selector and the prefetch loop are modelled as functions
producing the ordered list of observable effects they perform.
-/

/-! ## Python string primitives -/

/-- The whitespace characters recognised by Python str.strip and str.split. -/
def isPySpace (c : Char) : Bool :=
  c == ' ' || c == '\t' || c == '\n' || c == '\r' || c == '\x0B' || c == '\x0C'

/-- Python str.strip(): remove leading and trailing whitespace. -/
def pyStrip (l : List Char) : List Char :=
  ((l.dropWhile isPySpace).reverse.dropWhile isPySpace).reverse

/-- Python s.split("\x7bnewline\x7d"): split on every newline character.
The result is never empty; an empty string yields one empty piece. -/
def splitNl : List Char → List (List Char)
  | [] => [[]]
  | c :: t => if c = '\n' then [] :: splitNl t else (splitNl t).modifyHead (c :: ·)

/-- Join a list of pieces with newline separators; inverse of splitNl. -/
def joinNl : List (List Char) → List Char
  | [] => []
  | [t] => t
  | t :: ts => t ++ '\n' :: joinNl ts

/-- Python file.readlines(): split into lines, each line keeping its
terminating newline; the final line may lack one. -/
def pyReadlines : List Char → List (List Char)
  | [] => []
  | c :: t =>
    if c = '\n' then ['\n'] :: pyReadlines t
    else
      match pyReadlines t with
      | [] => [[c]]
      | h :: r => (c :: h) :: r

/-- The lines of a file whose newline-split pieces are the given tokens:
every token but the last becomes a line with a trailing newline, and a
nonempty last token becomes a final line without one. -/
def linesOf : List (List Char) → List (List Char)
  | [] => []
  | [t] => if t = [] then [] else [t]
  | t :: ts => (t ++ ['\n']) :: linesOf ts

/-- Python line.split()[0]: the first whitespace-delimited token. -/
def firstToken (l : List Char) : List Char :=
  (l.dropWhile isPySpace).takeWhile (fun c => !isPySpace c)

/-- Python c.isdigit() for the ASCII digit characters. -/
def pyIsDigit (c : Char) : Bool :=
  decide ('0' ≤ c ∧ c ≤ '9')

/-- Python int(c) for a digit character c. -/
def pyInt (c : Char) : Nat :=
  c.toNat - 48

/-! ## Configuration constants of the script -/

def DECK_NAME : List Char := "Japanese".toList

def CLOZE_EXAMPLE_SENTENCE_FIELD : List Char := "Expression".toList

def CLOZE_ENGLISH_FIELD : List Char := "Extra".toList

def BASIC_JAPANESE_FIELD : List Char := "Expression".toList

def BASIC_ENGLISH_FIELD : List Char := "Meaning".toList

def CLOZE_PROMPT_PATH : List Char := "cloze_prompt.txt".toList

def BASIC_PROMPT_PATH : List Char := "basic_prompt.txt".toList

/-! ## is_kana and prompt selection -/

/-- is_kana: true when every character of the string lies in the hiragana
block or in the katakana block. -/
def is_kana (s : List Char) : Bool :=
  s.all (fun c =>
    decide (('぀' ≤ c ∧ c ≤ 'ゟ') ∨ ('゠' ≤ c ∧ c ≤ 'ヿ')))

/-- The template file chosen by _request_flashcards_from_llm for a word. -/
def request_prompt_path (word : List Char) : List Char :=
  if is_kana word then BASIC_PROMPT_PATH else CLOZE_PROMPT_PATH

/-! ## New-word ingestion -/

/-- The word extraction pass of _get_new_words_from_multiline_string before
deduplication: split into lines, drop blank lines and comment lines, and
keep the first whitespace-delimited token of each remaining line. -/
def get_new_words_core (word_string : List Char) : List (List Char) :=
  ((splitNl word_string).filter
      (fun line => decide (pyStrip line ≠ [] ∧ (pyStrip line).head? ≠ some '#'))).map
    (fun line => firstToken (pyStrip line))

/-- The full _get_new_words_from_multiline_string is nondeterministic: the
extracted words pass through a set and a random shuffle.  Its possible
outputs are exactly the duplicate-free lists with the same members as the
extraction pass. -/
def get_new_words_result (word_string : List Char) (out : List (List Char)) : Prop :=
  out.Nodup ∧ ∀ w, w ∈ out ↔ w ∈ get_new_words_core word_string

/-! ## Word list file operations -/

/-- _load_pending_words_from_file: read the pending file and split its
content on newlines. -/
def load_pending_words (s : List Char) : List (List Char) :=
  splitNl s

/-- _append_new_pending_words_to_file: append each new word that is not
already among the existing words, followed by a newline. -/
def append_new_pending_words (new_words existing_words : List (List Char))
    (s : List Char) : List Char :=
  new_words.foldl (fun acc w => if w ∉ existing_words then acc ++ w ++ ['\n'] else acc) s

/-- _remove_word_from_pending_file: rewrite the pending file keeping the
lines whose stripped content differs from the word. -/
def remove_word_from_pending_file (word : List Char) (s : List Char) : List Char :=
  ((pyReadlines s).filter (fun line => decide (pyStrip line ≠ word))).flatten

/-! ## The interactive selector -/

/-- A candidate flashcard parsed from the model response. -/
structure Flashcard where
  example_sentence : List Char
  english : List Char
deriving DecidableEq, Inhabited

/-- An observable effect of the interactive selector, in order: a note
added to the collection, a word appended to the done or skipped file, or a
word removed from the pending file. -/
inductive SEvent where
  | addNote (model_id : Nat) (fields : List (List Char × List Char))
  | appendDone (w : List Char)
  | appendSkipped (w : List Char)
  | removePending (w : List Char)
deriving DecidableEq

/-- Whether an event touches one of the three word list files. -/
def SEvent.isFileEvent : SEvent → Bool
  | .addNote _ _ => false
  | _ => true

/-- The validation loop over a selection string: walk the characters with
the set of digit values seen so far, and return the first character that is
not a digit, indexes no candidate, or repeats; none when all pass. -/
def firstInvalid (n : Nat) : List Char → List Nat → Option Char
  | [], _ => none
  | c :: t, seen =>
    if ¬ pyIsDigit c ∨ n < pyInt c ∨ pyInt c = 0 ∨ pyInt c ∈ seen then some c
    else firstInvalid n t (pyInt c :: seen)

/-- The error line printed for a rejected selection string. -/
def invalid_input_message (n : Nat) (input : List Char) : Option (List Char) :=
  (firstInvalid n input []).map (fun c => "Invalid input: ".toList ++ [c])

/-- The note-creation effect for one selected candidate: kana words use the
basic model and its field names, all other words the cloze model. -/
def noteFor (basic_model_id cloze_model_id : Nat) (word : List Char)
    (card : Flashcard) : SEvent :=
  if is_kana word then
    SEvent.addNote basic_model_id
      [(BASIC_JAPANESE_FIELD, card.example_sentence), (BASIC_ENGLISH_FIELD, card.english)]
  else
    SEvent.addNote cloze_model_id
      [(CLOZE_EXAMPLE_SENTENCE_FIELD, card.example_sentence), (CLOZE_ENGLISH_FIELD, card.english)]

/-- _create_flashcard_interactively, as a function of the sequence of
strings the user types: empty input skips the word (append to skipped,
remove from pending); a valid selection creates one note per character in
input order and then appends to done and removes from pending; an invalid
selection re-prompts with the next input and performs no effect.  The
result is the ordered list of effects, or none when the input sequence runs
out before a terminal decision. -/
def create_flashcard_interactively (word : List Char) (flashcards : List Flashcard)
    (basic_model_id cloze_model_id : Nat) : List (List Char) → Option (List SEvent)
  | [] => none
  | input :: rest =>
    if input = [] then
      some [SEvent.appendSkipped word, SEvent.removePending word]
    else if firstInvalid flashcards.length input [] = none then
      some ((input.map (fun c =>
          noteFor basic_model_id cloze_model_id word
            (flashcards.getD (pyInt c - 1) default))) ++
        [SEvent.appendDone word, SEvent.removePending word])
    else
      create_flashcard_interactively word flashcards basic_model_id cloze_model_id rest

/-! ## File state and the all-skip run -/

/-- The contents of the three word list files, and the notes added to the
collection. -/
structure FilesState where
  pending : List Char
  done : List Char
  skipped : List Char
  notes : List (Nat × List (List Char × List Char))
deriving DecidableEq

/-- Apply one selector effect to the file state. -/
def applyEvent (st : FilesState) : SEvent → FilesState
  | .addNote m f => { st with notes := st.notes ++ [(m, f)] }
  | .appendDone w => { st with done := st.done ++ w ++ ['\n'] }
  | .appendSkipped w => { st with skipped := st.skipped ++ w ++ ['\n'] }
  | .removePending w => { st with pending := remove_word_from_pending_file w st.pending }

/-- A main-loop run over the given pending words in which the user answers
every prompt with an empty line: each word is skipped in turn. -/
def run_all_skip (st : FilesState) (words : List (List Char)) : FilesState :=
  words.foldl
    (fun st w => [SEvent.appendSkipped w, SEvent.removePending w].foldl applyEvent st) st

/-! ## The prefetch pipeline trace -/

/-- An event of the prefetch pipeline: submitting the background request
for the word at an index, retrieving its result, or starting the
interactive review of a word. -/
inductive PEvent where
  | submit (i : Nat)
  | retrieve (i : Nat)
  | review (i : Nat)
deriving DecidableEq

/-- The loop body of _main over the remaining indices: retrieve the result
for index i, submit the request for index i + 1 when it exists, then review
index i. -/
def run_loop (N : Nat) : List Nat → List PEvent
  | [] => []
  | i :: rest =>
    PEvent.retrieve i ::
      ((if i + 1 < N then [PEvent.submit (i + 1)] else []) ++
        (PEvent.review i :: run_loop N rest))

/-- The event trace of _main over N pending words: submit the request for
index 0, then run the loop over indices 0 .. N - 1. -/
def main_trace (N : Nat) : List PEvent :=
  PEvent.submit 0 :: run_loop N (List.range N)

/-- The events concerning the handoff between word i and word i + 1:
retrieving word i's result, submitting word i + 1's request, and starting
word i's review. -/
def tripleP (i : Nat) (e : PEvent) : Bool :=
  decide (e = PEvent.retrieve i ∨ e = PEvent.submit (i + 1) ∨ e = PEvent.review i)

/-- Number of submit events in a trace. -/
def countSubmits (l : List PEvent) : Nat :=
  l.countP (fun e => match e with | .submit _ => true | _ => false)

/-- Number of retrieve events in a trace. -/
def countRetrieves (l : List PEvent) : Nat :=
  l.countP (fun e => match e with | .retrieve _ => true | _ => false)

/-! ## Line structure infrastructure -/

/-- A single file line: nonempty, with no newline anywhere before its last
character. -/
def IsLine (l : List Char) : Prop :=
  l ≠ [] ∧ '\n' ∉ l.dropLast

/-- The shape of line lists produced by file.readlines: every entry is a
line, and every entry except the last ends with a newline. -/
inductive WFLines : List (List Char) → Prop
  | nil : WFLines []
  | single (l) : IsLine l → WFLines [l]
  | cons (l ls) : IsLine l → l.getLast? = some '\n' → WFLines ls → ls ≠ [] →
      WFLines (l :: ls)

/-! ## Lemmas about pyReadlines -/

theorem pyReadlines_nil_iff (s : List Char) : pyReadlines s = [] ↔ s = [] := by
  constructor
  · intro h
    cases s with
    | nil => rfl
    | cons c t =>
      exfalso
      rw [pyReadlines] at h
      split at h
      · exact absurd h (by simp)
      · split at h <;> simp_all
  · intro h
    subst h
    rfl

theorem pyReadlines_eq_single {l : List Char} (h : IsLine l) : pyReadlines l = [l] := by
  induction l with
  | nil => exact absurd rfl h.1
  | cons c t ih =>
    cases t with
    | nil =>
      by_cases hc : c = '\n'
      · subst hc; rfl
      · rw [pyReadlines]
        simp [hc, pyReadlines]
    | cons d t2 =>
      have hc : c ≠ '\n' := by
        intro hcE
        exact h.2 (by simp [List.dropLast_cons₂, hcE])
      have ht : IsLine (d :: t2) := by
        refine ⟨by simp, fun hmem => h.2 ?_⟩
        simp [List.dropLast_cons₂]
        exact Or.inr hmem
      rw [pyReadlines]
      simp only [if_neg hc, ih ht]

theorem pyReadlines_append_line {l : List Char} (hl : IsLine l)
    (hnl : l.getLast? = some '\n') (t : List Char) :
    pyReadlines (l ++ t) = l :: pyReadlines t := by
  induction l with
  | nil => exact absurd rfl hl.1
  | cons c l2 ih =>
    cases l2 with
    | nil =>
      have hc : c = '\n' := by simpa using hnl
      subst hc
      rw [List.singleton_append, pyReadlines]
      simp
    | cons d t2 =>
      have hc : c ≠ '\n' := by
        intro hcE
        exact hl.2 (by simp [List.dropLast_cons₂, hcE])
      have ht : IsLine (d :: t2) := by
        refine ⟨by simp, fun hmem => hl.2 ?_⟩
        simp [List.dropLast_cons₂]
        exact Or.inr hmem
      have htl : (d :: t2).getLast? = some '\n' := by
        rw [List.getLast?_cons_cons] at hnl
        exact hnl
      rw [List.cons_append, pyReadlines]
      simp only [if_neg hc, ih ht htl]

theorem isLine_cons {c : Char} {l : List Char} (hc : c ≠ '\n') (hl : IsLine l) :
    IsLine (c :: l) := by
  refine ⟨by simp, fun hmem => ?_⟩
  rcases List.exists_cons_of_ne_nil hl.1 with ⟨x, xs, hx⟩
  subst hx
  rw [List.dropLast_cons₂, List.mem_cons] at hmem
  rcases hmem with hmem | hmem
  · exact hc hmem.symm
  · exact hl.2 hmem

theorem getLast?_cons_of_ne_nil {α : Type} {c : α} {l : List α} (hl : l ≠ []) :
    (c :: l).getLast? = l.getLast? := by
  rcases List.exists_cons_of_ne_nil hl with ⟨x, xs, hx⟩
  subst hx
  exact List.getLast?_cons_cons

theorem pyReadlines_wf (s : List Char) : WFLines (pyReadlines s) := by
  induction s with
  | nil => exact WFLines.nil
  | cons c t ih =>
    by_cases hc : c = '\n'
    · subst hc
      rw [pyReadlines]
      simp only [if_pos rfl]
      rcases ht : pyReadlines t with _ | ⟨h2, r⟩
      · exact WFLines.single _ ⟨by simp, by simp⟩
      · exact WFLines.cons _ _ ⟨by simp, by simp⟩ (by simp) (ht ▸ ih) (by simp)
    · rw [pyReadlines]
      simp only [if_neg hc]
      rcases ht : pyReadlines t with _ | ⟨h2, r⟩
      · exact WFLines.single _ ⟨by simp, by simp⟩
      · rw [ht] at ih
        cases ih with
        | single _ h2line =>
          exact WFLines.single _ (isLine_cons hc h2line)
        | cons _ _ h2line h2last hr hrne =>
          refine WFLines.cons _ _ (isLine_cons hc h2line) ?_ hr hrne
          rw [getLast?_cons_of_ne_nil h2line.1]
          exact h2last

theorem wfLines_flatten {ls : List (List Char)} (h : WFLines ls) :
    pyReadlines ls.flatten = ls := by
  induction h with
  | nil => rfl
  | single l hl =>
    simp only [List.flatten_cons, List.flatten_nil, List.append_nil]
    exact pyReadlines_eq_single hl
  | cons l ls hl hnl hwf hne ih =>
    simp only [List.flatten_cons]
    rw [pyReadlines_append_line hl hnl, ih]

theorem wfLines_filter {ls : List (List Char)} (p : List Char → Bool)
    (h : WFLines ls) : WFLines (ls.filter p) := by
  induction h with
  | nil => exact WFLines.nil
  | single l hl =>
    rw [List.filter_cons]
    by_cases hp : p l
    · rw [if_pos hp, List.filter_nil]
      exact WFLines.single _ hl
    · rw [if_neg hp, List.filter_nil]
      exact WFLines.nil
  | cons l ls hl hnl hwf hne ih =>
    rw [List.filter_cons]
    by_cases hp : p l
    · rw [if_pos hp]
      rcases hf : ls.filter p with _ | ⟨x, xs⟩
      · exact WFLines.single _ hl
      · exact WFLines.cons _ _ hl hnl (hf ▸ ih) (by simp)
    · rw [if_neg hp]
      exact ih

/-- The key fact about _remove_word_from_pending_file: reading back the
rewritten pending file yields exactly the original lines whose stripped
content differs from the removed word. -/
theorem pyReadlines_remove (word s : List Char) :
    pyReadlines (remove_word_from_pending_file word s) =
      (pyReadlines s).filter (fun line => decide (pyStrip line ≠ word)) := by
  rw [remove_word_from_pending_file]
  rw [wfLines_flatten (wfLines_filter _ (pyReadlines_wf s))]

/-! ## Lemmas about splitNl and joinNl -/

theorem splitNl_ne_nil (s : List Char) : splitNl s ≠ [] := by
  induction s with
  | nil => simp [splitNl]
  | cons c t ih =>
    rw [splitNl]
    split
    · simp
    · rcases hS : splitNl t with _ | ⟨tok, rest⟩
      · exact absurd hS ih
      · simp

theorem not_nl_mem_of_mem_splitNl {s t : List Char} (h : t ∈ splitNl s) : '\n' ∉ t := by
  induction s generalizing t with
  | nil =>
    rw [splitNl] at h
    simp at h
    simp [h]
  | cons c s2 ih =>
    rw [splitNl] at h
    split at h
    · rcases List.mem_cons.1 h with h | h
      · simp [h]
      · exact ih h
    · rcases hS : splitNl s2 with _ | ⟨tok, rest⟩
      · exact absurd hS (splitNl_ne_nil s2)
      · rw [hS, List.modifyHead_cons] at h
        rcases List.mem_cons.1 h with h | h
        · subst h
          intro hmem
          rcases List.mem_cons.1 hmem with h2 | h2
          · rename_i hc
            exact hc h2.symm
          · exact ih (hS ▸ List.mem_cons_self tok rest) h2
        · exact ih (hS ▸ List.mem_cons_of_mem tok h)

theorem joinNl_splitNl (s : List Char) : joinNl (splitNl s) = s := by
  induction s with
  | nil => rfl
  | cons c t ih =>
    rcases hS : splitNl t with _ | ⟨tok, rest⟩
    · exact absurd hS (splitNl_ne_nil t)
    by_cases hc : c = '\n'
    · subst hc
      rw [splitNl, if_pos rfl, hS]
      rw [hS] at ih
      simpa [joinNl] using ih
    · rw [splitNl, if_neg hc, hS, List.modifyHead_cons]
      rw [hS] at ih
      cases rest with
      | nil => simpa [joinNl] using congrArg (c :: ·) ih
      | cons x xs => simpa [joinNl] using congrArg (c :: ·) ih

theorem splitNl_getLast_of_nl {s : List Char} (h : s.getLast? = some '\n') :
    (splitNl s).getLast? = some [] := by
  induction s with
  | nil => simp at h
  | cons c t ih =>
    cases t with
    | nil =>
      simp only [List.getLast?_singleton, Option.some.injEq] at h
      subst h
      rfl
    | cons d t2 =>
      rw [List.getLast?_cons_cons] at h
      have ihv := ih h
      rcases hS : splitNl (d :: t2) with _ | ⟨tok, rest⟩
      · exact absurd hS (splitNl_ne_nil _)
      rw [hS] at ihv
      by_cases hc : c = '\n'
      · rw [splitNl, if_pos hc, hS, getLast?_cons_of_ne_nil (by simp)]
        exact ihv
      · rw [splitNl, if_neg hc, hS, List.modifyHead_cons]
        cases rest with
        | nil =>
          exfalso
          simp only [List.getLast?_singleton, Option.some.injEq] at ihv
          subst ihv
          have hmem : '\n' ∈ (d :: t2) := List.mem_of_getLast?_eq_some h
          have hjoin := joinNl_splitNl (d :: t2)
          rw [hS, joinNl] at hjoin
          exact not_nl_mem_of_mem_splitNl (hS ▸ List.mem_cons_self _ _) (hjoin ▸ hmem)
        | cons x xs =>
          rw [List.getLast?_cons_cons]
          rw [List.getLast?_cons_cons] at ihv
          exact ihv

/-! ## Lemmas about pyStrip -/

theorem pyStrip_cons_space {c : Char} (h : isPySpace c = true) (l : List Char) :
    pyStrip (c :: l) = pyStrip l := by
  rw [pyStrip, pyStrip, List.dropWhile_cons, if_pos h]

theorem pyStrip_append_nl (t : List Char) : pyStrip (t ++ ['\n']) = pyStrip t := by
  induction t with
  | nil => rfl
  | cons c t ih =>
    by_cases hsp : isPySpace c
    · rw [List.cons_append, pyStrip_cons_space hsp, pyStrip_cons_space hsp]
      exact ih
    · have h1 : (c :: (t ++ ['\n'])).reverse = '\n' :: (t.reverse ++ [c]) := by simp
      rw [List.cons_append, pyStrip, pyStrip, List.dropWhile_cons, List.dropWhile_cons,
        if_neg hsp, if_neg hsp, h1, List.reverse_cons, List.dropWhile_cons,
        if_pos (show isPySpace '\n' = true from rfl)]

/-! ## pyReadlines versus splitNl -/

theorem pyReadlines_eq_linesOf (s : List Char) :
    pyReadlines s = linesOf (splitNl s) := by
  induction s with
  | nil => rfl
  | cons c t ih =>
    rcases hS : splitNl t with _ | ⟨tok, rest⟩
    · exact absurd hS (splitNl_ne_nil t)
    rw [hS] at ih
    by_cases hc : c = '\n'
    · subst hc
      rw [pyReadlines, if_pos rfl, splitNl, if_pos rfl, hS, ih]
      rfl
    · rw [pyReadlines, splitNl, if_neg hc, if_neg hc, hS, List.modifyHead_cons]
      cases rest with
      | nil =>
        by_cases htok : tok = []
        · subst htok
          rw [ih]
          rfl
        · rw [ih, linesOf, if_neg htok, linesOf,
            if_neg (by simp : (c :: tok) ≠ [])]
      | cons x xs =>
        rw [ih]
        show (c :: (tok ++ ['\n'])) :: linesOf (x :: xs) = linesOf ((c :: tok) :: x :: xs)
        have hl : linesOf ((c :: tok) :: x :: xs) =
            ((c :: tok) ++ ['\n']) :: linesOf (x :: xs) := rfl
        rw [hl, List.cons_append]

theorem mem_linesOf {ts : List (List Char)} {l : List Char} (h : l ∈ linesOf ts) :
    ∃ t ∈ ts, l = t ++ ['\n'] ∨ l = t := by
  induction ts with
  | nil => simp [linesOf] at h
  | cons t ts ih =>
    cases ts with
    | nil =>
      rw [linesOf] at h
      split at h
      · simp at h
      · rw [List.mem_singleton] at h
        exact ⟨t, List.mem_cons_self _ _, Or.inr h⟩
    | cons x xs =>
      have hl : linesOf (t :: x :: xs) = (t ++ ['\n']) :: linesOf (x :: xs) := rfl
      rw [hl] at h
      rcases List.mem_cons.1 h with h | h
      · exact ⟨t, List.mem_cons_self _ _, Or.inl h⟩
      · rcases ih h with ⟨t2, hmem, hor⟩
        exact ⟨t2, List.mem_cons_of_mem _ hmem, hor⟩

/-! ## The all-skip run -/

theorem pyReadlines_foldl_remove (ws : List (List Char)) (s : List Char) :
    pyReadlines (ws.foldl (fun acc w => remove_word_from_pending_file w acc) s) =
      (pyReadlines s).filter (fun l => decide (pyStrip l ∉ ws)) := by
  induction ws generalizing s with
  | nil =>
    rw [List.foldl_nil]
    refine (List.filter_eq_self.2 ?_).symm
    intro a _
    simp
  | cons w ws ih =>
    rw [List.foldl_cons, ih, pyReadlines_remove, List.filter_filter]
    apply List.filter_congr
    intro l _
    by_cases h1 : pyStrip l = w <;> by_cases h2 : pyStrip l ∈ ws <;>
      simp [h1, h2]

theorem run_all_skip_eq (st : FilesState) (ws : List (List Char)) :
    run_all_skip st ws =
      { pending := ws.foldl (fun acc w => remove_word_from_pending_file w acc) st.pending,
        done := st.done,
        skipped := st.skipped ++ (ws.map (fun w => w ++ ['\n'])).flatten,
        notes := st.notes } := by
  induction ws generalizing st with
  | nil =>
    simp only [run_all_skip, List.foldl_nil, List.map_nil, List.flatten_nil,
      List.append_nil]
  | cons w ws ih =>
    have hstep : run_all_skip st (w :: ws) =
        run_all_skip (applyEvent (applyEvent st (SEvent.appendSkipped w))
          (SEvent.removePending w)) ws := rfl
    rw [hstep, ih]
    simp only [applyEvent, List.foldl_cons, List.map_cons, List.flatten_cons]
    refine congrArg₂ (fun a b => FilesState.mk a _ b _) rfl ?_
    simp

theorem pyReadlines_flatten_words {ws : List (List Char)}
    (h : ∀ w ∈ ws, '\n' ∉ w) :
    pyReadlines ((ws.map (fun w => w ++ ['\n'])).flatten) =
      ws.map (fun w => w ++ ['\n']) := by
  induction ws with
  | nil => rfl
  | cons w ws ih =>
    rw [List.map_cons, List.flatten_cons]
    rw [pyReadlines_append_line ⟨by simp, ?_⟩ (List.getLast?_concat _)]
    · rw [ih (fun x hx => h x (List.mem_cons_of_mem _ hx))]
    · rw [List.dropLast_concat]
      exact h w (List.mem_cons_self _ _)

/-! ## Digit characters -/

theorem char_toNat_le_of_le {a b : Char} (h : a ≤ b) : a.toNat ≤ b.toNat := by
  rw [Char.le_def, UInt32.le_def, BitVec.le_def] at h
  exact h

theorem pyIsDigit_toNat {c : Char} (h : pyIsDigit c = true) :
    48 ≤ c.toNat ∧ c.toNat ≤ 57 := by
  rw [pyIsDigit, decide_eq_true_eq] at h
  exact ⟨char_toNat_le_of_le h.1, char_toNat_le_of_le h.2⟩

theorem pyInt_inj {c d : Char} (hc : pyIsDigit c = true) (hd : pyIsDigit d = true)
    (h : pyInt c = pyInt d) : c = d := by
  have h1 := pyIsDigit_toNat hc
  have h2 := pyIsDigit_toNat hd
  have h3 : c.toNat = d.toNat := by
    rw [pyInt, pyInt] at h
    omega
  have h4 := congrArg Char.ofNat h3
  simpa [Char.ofNat_toNat] using h4

/-! ## The validation loop -/

theorem firstInvalid_none_iff (n : Nat) :
    ∀ (input : List Char) (seen : List Nat),
      firstInvalid n input seen = none ↔
        ((∀ c ∈ input, pyIsDigit c = true ∧ 1 ≤ pyInt c ∧ pyInt c ≤ n) ∧
          (input.map pyInt).Nodup ∧ ∀ c ∈ input, pyInt c ∉ seen) := by
  intro input
  induction input with
  | nil =>
    intro seen
    simp [firstInvalid]
  | cons c t ih =>
    intro seen
    rw [firstInvalid]
    by_cases hbad : ¬ pyIsDigit c = true ∨ n < pyInt c ∨ pyInt c = 0 ∨ pyInt c ∈ seen
    · rw [if_pos hbad]
      constructor
      · intro hF
        simp at hF
      · rintro ⟨hall, _, hseen⟩
        exfalso
        have h1 := hall c (List.mem_cons_self _ _)
        have h2 := hseen c (List.mem_cons_self _ _)
        rcases hbad with h | h | h | h
        · exact h h1.1
        · omega
        · omega
        · exact h2 h
    · rw [if_neg hbad]
      push_neg at hbad
      obtain ⟨hdig, hle, hne, hnotseen⟩ := hbad
      rw [ih (pyInt c :: seen)]
      simp only [List.mem_cons, List.map_cons, List.nodup_cons, List.mem_map,
        forall_eq_or_imp]
      constructor
      · rintro ⟨hall, hnd, hseen⟩
        refine ⟨⟨⟨hdig, by omega, hle⟩, hall⟩, ⟨?_, hnd⟩, hnotseen, ?_⟩
        · rintro ⟨x, hx, hfx⟩
          exact (hseen x hx) (by simp [hfx])
        · intro x hx
          have := hseen x hx
          simp only [List.mem_cons, not_or] at this
          exact this.2
      · rintro ⟨⟨_, hall⟩, ⟨hnomem, hnd⟩, _, hseen⟩
        refine ⟨hall, hnd, ?_⟩
        intro x hx
        simp only [List.mem_cons, not_or]
        exact ⟨fun he => hnomem ⟨x, hx, he⟩, hseen x hx⟩

theorem map_pyInt_nodup_iff {input : List Char}
    (h : ∀ c ∈ input, pyIsDigit c = true) :
    (input.map pyInt).Nodup ↔ input.Nodup := by
  constructor
  · exact List.Nodup.of_map _
  · intro hn
    exact (List.nodup_map_iff_inj_on hn).2
      (fun x hx y hy hf => pyInt_inj (h x hx) (h y hy) hf)

theorem firstInvalid_some_decomp (n : Nat) :
    ∀ (input : List Char) (seen : List Nat) (ch : Char),
      firstInvalid n input seen = some ch →
      ∃ pre post, input = pre ++ ch :: post ∧ firstInvalid n pre seen = none ∧
        firstInvalid n (pre ++ [ch]) seen = some ch := by
  intro input
  induction input with
  | nil =>
    intro seen ch h
    simp [firstInvalid] at h
  | cons c t ih =>
    intro seen ch h
    rw [firstInvalid] at h
    by_cases hbad : ¬ pyIsDigit c = true ∨ n < pyInt c ∨ pyInt c = 0 ∨ pyInt c ∈ seen
    · rw [if_pos hbad] at h
      have hc : c = ch := by simpa using h
      subst hc
      refine ⟨[], t, by simp, rfl, ?_⟩
      rw [List.nil_append, firstInvalid, if_pos hbad]
    · rw [if_neg hbad] at h
      rcases ih (pyInt c :: seen) ch h with ⟨pre, post, hsplit, hnone, hsome⟩
      refine ⟨c :: pre, post, by rw [hsplit, List.cons_append], ?_, ?_⟩
      · rw [firstInvalid, if_neg hbad]
        exact hnone
      · rw [List.cons_append, firstInvalid, if_neg hbad]
        exact hsome

/-! ## Lemmas about the pipeline trace -/

theorem submit_mem_run_loop {N j : Nat} :
    ∀ l, PEvent.submit j ∈ run_loop N l → ∃ i ∈ l, j = i + 1 ∧ i + 1 < N := by
  intro l
  induction l with
  | nil => simp [run_loop]
  | cons i rest ih =>
    intro h
    rw [run_loop] at h
    rcases List.mem_cons.1 h with h | h
    · simp at h
    · rw [List.mem_append] at h
      rcases h with h | h
      · by_cases hlt : i + 1 < N
        · rw [if_pos hlt, List.mem_singleton] at h
          have : j = i + 1 := by simpa using h
          exact ⟨i, List.mem_cons_self _ _, this, hlt⟩
        · rw [if_neg hlt] at h
          simp at h
      · rcases List.mem_cons.1 h with h | h
        · simp at h
        · rcases ih h with ⟨i2, hmem, he, hlt⟩
          exact ⟨i2, List.mem_cons_of_mem _ hmem, he, hlt⟩

theorem review_mem_run_loop {N i : Nat} :
    ∀ l, i ∈ l → PEvent.review i ∈ run_loop N l := by
  intro l
  induction l with
  | nil => simp
  | cons k rest ih =>
    intro h
    rw [run_loop]
    rcases List.mem_cons.1 h with h | h
    · subst h
      simp
    · exact List.mem_cons_of_mem _
        (List.mem_append_right _ (List.mem_cons_of_mem _ (ih h)))

theorem filter_triple_not_mem {N i : Nat} :
    ∀ l, i ∉ l → (run_loop N l).filter (tripleP i) = [] := by
  intro l
  induction l with
  | nil => simp [run_loop]
  | cons k rest ih =>
    intro hmem
    simp only [List.mem_cons, not_or] at hmem
    have hk : k ≠ i := fun h => hmem.1 h.symm
    rw [run_loop]
    by_cases hlt : k + 1 < N <;>
      simp [hlt, List.filter_cons, List.filter_append, tripleP, hk, ih hmem.2,
        fun h : k + 1 = i + 1 => hk (by omega)]

theorem filter_triple_count_one {N i : Nat} (hi : i + 1 < N) :
    ∀ l, l.count i = 1 → (run_loop N l).filter (tripleP i) =
      [PEvent.retrieve i, PEvent.submit (i + 1), PEvent.review i] := by
  intro l
  induction l with
  | nil => simp
  | cons k rest ih =>
    intro hcount
    by_cases hk : k = i
    · subst hk
      rw [List.count_cons_self] at hcount
      have hrest : k ∉ rest := List.count_eq_zero.1 (by omega)
      rw [run_loop, if_pos hi]
      simp [List.filter_cons, List.filter_append, tripleP,
        filter_triple_not_mem rest hrest]
    · have hik : i ≠ k := fun h => hk h.symm
      rw [List.count_cons_of_ne hik] at hcount
      rw [run_loop]
      by_cases hlt : k + 1 < N <;>
        simp [hlt, List.filter_cons, List.filter_append, tripleP, hk, ih hcount,
          fun h : k + 1 = i + 1 => hk (by omega)]

theorem countS_le_countR_take {N : Nat} :
    ∀ (l : List Nat) (n : Nat),
      countSubmits ((run_loop N l).take n) ≤ countRetrieves ((run_loop N l).take n) := by
  intro l
  induction l with
  | nil =>
    intro n
    simp [run_loop, countSubmits, countRetrieves]
  | cons i rest ih =>
    intro n
    rw [run_loop]
    by_cases hlt : i + 1 < N
    · rw [if_pos hlt, List.singleton_append]
      rcases n with _ | _ | _ | m
      · simp [countSubmits, countRetrieves]
      · simp [countSubmits, countRetrieves, List.countP_cons]
      · simp [countSubmits, countRetrieves, List.countP_cons]
      · simp only [List.take_succ_cons]
        have := ih m
        simp only [countSubmits, countRetrieves, List.countP_cons] at *
        omega
    · rw [if_neg hlt, List.nil_append]
      rcases n with _ | _ | m
      · simp [countSubmits, countRetrieves]
      · simp [countSubmits, countRetrieves, List.countP_cons]
      · simp only [List.take_succ_cons]
        have := ih m
        simp [countSubmits, countRetrieves, List.countP_cons] at *
        omega

/-! ## Claim theorems -/

/-- C5: for every pending-file content and word, after
_remove_word_from_pending_file the file contains no line whose stripped
content equals the word, and the remaining lines are exactly the original
lines whose stripped content differs from it, unchanged and in their
original relative order. -/
theorem remove_pending_correct (word s : List Char) :
    pyReadlines (remove_word_from_pending_file word s) =
      (pyReadlines s).filter (fun line => decide (pyStrip line ≠ word)) ∧
    ∀ line ∈ pyReadlines (remove_word_from_pending_file word s),
      pyStrip line ≠ word := by
  refine ⟨pyReadlines_remove word s, ?_⟩
  intro line hmem
  rw [pyReadlines_remove] at hmem
  rcases List.mem_filter.1 hmem with ⟨_, hp⟩
  simpa using hp

theorem remove_pending_correct_witness :
    "b\n".toList ∈ pyReadlines (remove_word_from_pending_file "a".toList "a\nb\n".toList) ∧
    pyStrip "b\n".toList ≠ "a".toList :=
  ⟨by decide, (remove_pending_correct "a".toList "a\nb\n".toList).2 _ (by decide)⟩

/-- C6: is_kana returns true iff every character lies in the hiragana
block U+3040..U+309F or the katakana block U+30A0..U+30FF; one character
outside both blocks forces is_kana false and hence the cloze template; the
classification selects the basic versus cloze prompt file. -/
theorem kana_classification_correct (s : List Char) :
    (is_kana s = true ↔
      ∀ c ∈ s, ('぀' ≤ c ∧ c ≤ 'ゟ') ∨ ('゠' ≤ c ∧ c ≤ 'ヿ')) ∧
    (∀ c ∈ s, ¬ (('぀' ≤ c ∧ c ≤ 'ゟ') ∨ ('゠' ≤ c ∧ c ≤ 'ヿ')) →
      is_kana s = false ∧ request_prompt_path s = CLOZE_PROMPT_PATH) ∧
    request_prompt_path s =
      if is_kana s then BASIC_PROMPT_PATH else CLOZE_PROMPT_PATH := by
  have hiff : is_kana s = true ↔
      ∀ c ∈ s, ('぀' ≤ c ∧ c ≤ 'ゟ') ∨ ('゠' ≤ c ∧ c ≤ 'ヿ') := by
    rw [is_kana, List.all_eq_true]
    simp
  refine ⟨hiff, ?_, rfl⟩
  intro c hc hnot
  have hf : is_kana s = false := by
    cases h : is_kana s
    · rfl
    · exact absurd (hiff.1 h c hc) hnot
  refine ⟨hf, ?_⟩
  rw [request_prompt_path, hf]
  rfl

theorem kana_classification_correct_witness :
    ('感' ∈ "感じ".toList) ∧
    ¬ (('぀' ≤ '感' ∧ '感' ≤ 'ゟ') ∨ ('゠' ≤ '感' ∧ '感' ≤ 'ヿ')) ∧
    is_kana "感じ".toList = false ∧
    request_prompt_path "感じ".toList = CLOZE_PROMPT_PATH :=
  ⟨by decide, by decide,
    ((kana_classification_correct "感じ".toList).2.1 '感' (by decide) (by decide)).1,
    ((kana_classification_correct "感じ".toList).2.1 '感' (by decide) (by decide)).2⟩

/-- C7: for the documented input, the ingestion extraction yields exactly
the set containing word1 and word2, and every possible output of the full
nondeterministic ingestion (set deduplication plus random shuffle) is a
permutation of that set; in general every output is a permutation of the
deduplicated extraction. -/
theorem ingestion_extraction_correct :
    (∀ out,
      get_new_words_result "# comment\n\nword1 reading\nword1\nword2\n".toList out →
        out.Perm ["word1".toList, "word2".toList]) ∧
    (∀ s out, get_new_words_result s out →
        out.Perm (get_new_words_core s).dedup) := by
  constructor
  · intro out hout
    rcases hout with ⟨hnd, hmem⟩
    rw [List.perm_ext_iff_of_nodup hnd (by decide)]
    intro a
    rw [hmem a]
    rw [show get_new_words_core "# comment\n\nword1 reading\nword1\nword2\n".toList =
        ["word1".toList, "word1".toList, "word2".toList] from by decide]
    simp only [List.mem_cons, List.not_mem_nil, or_false]
    tauto
  · intro s out hout
    rcases hout with ⟨hnd, hmem⟩
    rw [List.perm_ext_iff_of_nodup hnd (List.nodup_dedup _)]
    intro a
    rw [hmem a, List.mem_dedup]

theorem ingestion_extraction_correct_witness :
    get_new_words_result "# comment\n\nword1 reading\nword1\nword2\n".toList
      ["word2".toList, "word1".toList] ∧
    List.Perm ["word2".toList, "word1".toList] ["word1".toList, "word2".toList] := by
  have h1 : get_new_words_result "# comment\n\nword1 reading\nword1\nword2\n".toList
      ["word2".toList, "word1".toList] := by
    refine ⟨by decide, ?_⟩
    intro w
    rw [show get_new_words_core "# comment\n\nword1 reading\nword1\nword2\n".toList =
        ["word1".toList, "word1".toList, "word2".toList] from by decide]
    simp only [List.mem_cons, List.not_mem_nil, or_false]
    tauto
  exact ⟨h1, ingestion_extraction_correct.1 _ h1⟩

/-- C8: _append_new_pending_words_to_file appends exactly the candidate
words not already present among the existing words, each as one new line,
in order; appending a single already-present word, or a batch consisting
only of already-present words, leaves the pending file unchanged. -/
theorem append_pending_correct (new_words existing_words : List (List Char))
    (s : List Char) :
    append_new_pending_words new_words existing_words s =
      s ++ ((new_words.filter (fun w => decide (w ∉ existing_words))).map
        (fun w => w ++ ['\n'])).flatten ∧
    (∀ w ∈ existing_words, append_new_pending_words [w] existing_words s = s) ∧
    ((∀ w ∈ new_words, w ∈ existing_words) →
      append_new_pending_words new_words existing_words s = s) := by
  have hgen : ∀ (nw : List (List Char)) (s0 : List Char),
      append_new_pending_words nw existing_words s0 =
        s0 ++ ((nw.filter (fun w => decide (w ∉ existing_words))).map
          (fun w => w ++ ['\n'])).flatten := by
    intro nw
    induction nw with
    | nil =>
      intro s0
      simp [append_new_pending_words]
    | cons w nw ih =>
      intro s0
      have hstep : append_new_pending_words (w :: nw) existing_words s0 =
          append_new_pending_words nw existing_words
            (if w ∉ existing_words then s0 ++ w ++ ['\n'] else s0) := rfl
      rw [hstep, ih, List.filter_cons]
      by_cases hw : w ∈ existing_words
      · simp [hw]
      · simp [hw, List.append_assoc]
  refine ⟨hgen new_words s, ?_, ?_⟩
  · intro w hw
    rw [hgen]
    simp [hw]
  · intro hall
    rw [hgen]
    have hnil : new_words.filter (fun w => decide (w ∉ existing_words)) = [] :=
      List.filter_eq_nil_iff.2 (fun w hw => by simp [hall w hw])
    rw [hnil]
    simp

theorem append_pending_correct_witness :
    "a".toList ∈ ["a".toList, "b".toList] ∧
    append_new_pending_words ["a".toList] ["a".toList, "b".toList] "a\nb\n".toList =
      "a\nb\n".toList :=
  ⟨by decide,
    (append_pending_correct ["a".toList] ["a".toList, "b".toList]
      "a\nb\n".toList).2.1 "a".toList (by decide)⟩

/-- C10: loading the pending words splits the file content on every
newline (joinNl inverts the split and no piece contains a newline) and the
result is never empty: an empty file yields one empty entry and a
newline-terminated file a trailing empty entry.  Hence the
no-words-to-process guard never fires, and the main loop submits a request
for index 0 and reviews every index, blank entries included. -/
theorem load_pending_split_correct :
    (∀ s : List Char, joinNl (load_pending_words s) = s ∧
      ∀ t ∈ load_pending_words s, '\n' ∉ t) ∧
    (∀ s : List Char, load_pending_words s ≠ [] ∧
      (load_pending_words s).isEmpty = false) ∧
    load_pending_words [] = [[]] ∧
    (∀ s : List Char, s.getLast? = some '\n' →
      (load_pending_words s).getLast? = some []) ∧
    (∀ s : List Char,
      PEvent.submit 0 ∈ main_trace (load_pending_words s).length ∧
      ∀ i < (load_pending_words s).length,
        PEvent.review i ∈ main_trace (load_pending_words s).length) := by
  refine ⟨?_, ?_, rfl, ?_, ?_⟩
  · intro s
    exact ⟨joinNl_splitNl s, fun t ht => not_nl_mem_of_mem_splitNl ht⟩
  · intro s
    refine ⟨splitNl_ne_nil s, ?_⟩
    rcases h : load_pending_words s with _ | ⟨t, ts⟩
    · exact absurd h (splitNl_ne_nil s)
    · rfl
  · intro s h
    exact splitNl_getLast_of_nl h
  · intro s
    refine ⟨List.mem_cons_self _ _, ?_⟩
    intro i hi
    exact List.mem_cons_of_mem _ (review_mem_run_loop _ (List.mem_range.2 hi))

theorem load_pending_split_correct_witness :
    ("a\n".toList.getLast? = some '\n') ∧
    (load_pending_words "a\n".toList).getLast? = some [] ∧
    0 < (load_pending_words "".toList).length ∧
    PEvent.review 0 ∈ main_trace (load_pending_words "".toList).length :=
  ⟨by decide, load_pending_split_correct.2.2.2.1 "a\n".toList (by decide),
    by decide, (load_pending_split_correct.2.2.2.2 "".toList).2 0 (by decide)⟩

theorem noteFor_ne_removePending {b c : Nat} {w v : List Char} {card : Flashcard}
    (h : noteFor b c w card = SEvent.removePending v) : False := by
  rw [noteFor] at h
  split at h <;> simp at h

theorem noteFor_not_file {b c : Nat} {w : List Char} {card : Flashcard} :
    SEvent.isFileEvent (noteFor b c w card) = false := by
  rw [noteFor]
  split <;> rfl

/-- C2: whenever the interactive selector reaches a terminal decision
(some cards kept, or the word skipped), the trace of file effects removes
the word from the pending file exactly once, and that removal comes
strictly after the word is appended to the skipped file (skip case) or the
done file (kept case). -/
theorem terminal_decision_files (word : List Char) (flashcards : List Flashcard)
    (basic_model_id cloze_model_id : Nat) (inputs : List (List Char))
    (tr : List SEvent)
    (h : create_flashcard_interactively word flashcards basic_model_id
      cloze_model_id inputs = some tr) :
    tr.count (SEvent.removePending word) = 1 ∧
    (tr.filter SEvent.isFileEvent =
        [SEvent.appendSkipped word, SEvent.removePending word] ∨
      tr.filter SEvent.isFileEvent =
        [SEvent.appendDone word, SEvent.removePending word]) := by
  induction inputs with
  | nil => simp [create_flashcard_interactively] at h
  | cons input rest ih =>
    rw [create_flashcard_interactively] at h
    by_cases he : input = []
    · rw [if_pos he] at h
      have htr := (Option.some.inj h).symm
      subst htr
      refine ⟨?_, Or.inl rfl⟩
      simp [List.count_cons]
    · rw [if_neg he] at h
      by_cases hv : firstInvalid flashcards.length input [] = none
      · rw [if_pos hv] at h
        have htr := (Option.some.inj h).symm
        subst htr
        constructor
        · rw [List.count_append]
          have hmap : (input.map (fun c =>
              noteFor basic_model_id cloze_model_id word
                (flashcards.getD (pyInt c - 1) default))).count
                  (SEvent.removePending word) = 0 := by
            rw [List.count_eq_zero]
            intro hmem
            rcases List.mem_map.1 hmem with ⟨c2, _, hc2⟩
            exact noteFor_ne_removePending hc2
          rw [hmap]
          simp [List.count_cons]
        · refine Or.inr ?_
          rw [List.filter_append]
          have hmap : (input.map (fun c =>
              noteFor basic_model_id cloze_model_id word
                (flashcards.getD (pyInt c - 1) default))).filter
                  SEvent.isFileEvent = [] := by
            rw [List.filter_eq_nil_iff]
            intro e hmem
            rcases List.mem_map.1 hmem with ⟨c2, _, hc2⟩
            rw [← hc2, noteFor_not_file]
            simp
          rw [hmap]
          rfl
      · rw [if_neg hv] at h
        exact ih h

theorem terminal_decision_files_witness :
    create_flashcard_interactively ['a'] [] 1 2 [[]] =
      some [SEvent.appendSkipped ['a'], SEvent.removePending ['a']] ∧
    [SEvent.appendSkipped ['a'],
      SEvent.removePending ['a']].count (SEvent.removePending ['a']) = 1 :=
  ⟨rfl, (terminal_decision_files ['a'] [] 1 2 [[]] _ rfl).1⟩

/-- C4: every invalid selection string is rejected without mutating any
state (the selector simply moves on to the next attempt, producing no
effect), and the rejection names the offending character: the first
character of the input that fails the validation loop, all earlier
characters passing it. -/
theorem invalid_selection_no_mutation (n : Nat) (input : List Char)
    (hne : input ≠ [])
    (hinv : ¬ ((∀ c ∈ input, pyIsDigit c = true ∧ 1 ≤ pyInt c ∧ pyInt c ≤ n) ∧
      input.Nodup)) :
    (∀ (word : List Char) (flashcards : List Flashcard) (b c : Nat)
        (rest : List (List Char)),
        flashcards.length = n →
        create_flashcard_interactively word flashcards b c (input :: rest) =
          create_flashcard_interactively word flashcards b c rest) ∧
    ∃ ch pre post,
      firstInvalid n input [] = some ch ∧
      invalid_input_message n input = some ("Invalid input: ".toList ++ [ch]) ∧
      input = pre ++ ch :: post ∧
      firstInvalid n pre [] = none ∧
      firstInvalid n (pre ++ [ch]) [] = some ch := by
  have hsome : firstInvalid n input [] ≠ none := by
    intro h
    rcases (firstInvalid_none_iff n input []).1 h with ⟨hall, hnd, _⟩
    exact hinv ⟨hall, (map_pyInt_nodup_iff (fun c hc => (hall c hc).1)).1 hnd⟩
  rcases hopt : firstInvalid n input [] with _ | ch
  · exact absurd hopt hsome
  constructor
  · intro word flashcards b c rest hlen
    rw [create_flashcard_interactively, if_neg hne,
      if_neg (by rw [hlen, hopt]; simp)]
  · rcases firstInvalid_some_decomp n input [] ch hopt with ⟨pre, post, h1, h2, h3⟩
    exact ⟨ch, pre, post, rfl, by rw [invalid_input_message, hopt]; rfl, h1, h2, h3⟩

theorem invalid_selection_no_mutation_witness :
    ("13".toList ≠ [] ∧
      ¬ ((∀ c ∈ "13".toList, pyIsDigit c = true ∧ 1 ≤ pyInt c ∧ pyInt c ≤ 2) ∧
        "13".toList.Nodup)) ∧
    create_flashcard_interactively ['x'] [⟨['s'], ['e']⟩, ⟨['t'], ['f']⟩] 1 2
        ["13".toList, []] =
      create_flashcard_interactively ['x'] [⟨['s'], ['e']⟩, ⟨['t'], ['f']⟩] 1 2 [[]] := by
  have h := invalid_selection_no_mutation 2 "13".toList (by decide) (by decide)
  exact ⟨⟨by decide, by decide⟩,
    h.1 ['x'] [⟨['s'], ['e']⟩, ⟨['t'], ['f']⟩] 1 2 [[]] rfl⟩

/-- C3: the selector accepts exactly the selection strings whose every
character is a digit indexing a candidate (1..n) with no repeats; empty
input skips the word with no notes; a valid non-empty input creates one
note per digit in input order — kana words via the basic mapping, others
via the cloze mapping — and only then appends the word to the done file
and removes it from pending; concretely, against 2 candidates the input
21 keeps candidates 2 then 1, while 3 and 11 are rejected. -/
theorem selector_validation_and_creation :
    (∀ (n : Nat) (input : List Char),
      firstInvalid n input [] = none ↔
        (∀ c ∈ input, pyIsDigit c = true ∧ 1 ≤ pyInt c ∧ pyInt c ≤ n) ∧
          input.Nodup) ∧
    (∀ (word : List Char) (flashcards : List Flashcard) (b c : Nat)
        (rest : List (List Char)),
      create_flashcard_interactively word flashcards b c ([] :: rest) =
        some [SEvent.appendSkipped word, SEvent.removePending word]) ∧
    (∀ (word : List Char) (flashcards : List Flashcard) (b c : Nat)
        (rest : List (List Char)) (input : List Char),
      input ≠ [] → firstInvalid flashcards.length input [] = none →
      create_flashcard_interactively word flashcards b c (input :: rest) =
        some ((input.map (fun ch =>
            noteFor b c word (flashcards.getD (pyInt ch - 1) default))) ++
          [SEvent.appendDone word, SEvent.removePending word])) ∧
    (∀ (b c : Nat) (word : List Char) (card : Flashcard),
      (is_kana word = true →
        noteFor b c word card = SEvent.addNote b
          [(BASIC_JAPANESE_FIELD, card.example_sentence),
            (BASIC_ENGLISH_FIELD, card.english)]) ∧
      (is_kana word = false →
        noteFor b c word card = SEvent.addNote c
          [(CLOZE_EXAMPLE_SENTENCE_FIELD, card.example_sentence),
            (CLOZE_ENGLISH_FIELD, card.english)])) ∧
    (∀ (word : List Char) (f1 f2 : Flashcard) (b c : Nat)
        (rest : List (List Char)),
      create_flashcard_interactively word [f1, f2] b c ("21".toList :: rest) =
        some [noteFor b c word f2, noteFor b c word f1,
          SEvent.appendDone word, SEvent.removePending word]) ∧
    (firstInvalid 2 "3".toList [] = some '3' ∧
      firstInvalid 2 "11".toList [] = some '1' ∧
      ∀ (word : List Char) (f1 f2 : Flashcard) (b c : Nat)
        (rest : List (List Char)),
        create_flashcard_interactively word [f1, f2] b c ("3".toList :: rest) =
          create_flashcard_interactively word [f1, f2] b c rest ∧
        create_flashcard_interactively word [f1, f2] b c ("11".toList :: rest) =
          create_flashcard_interactively word [f1, f2] b c rest) := by
  have hvalid : ∀ (word : List Char) (flashcards : List Flashcard) (b c : Nat)
      (rest : List (List Char)) (input : List Char),
      input ≠ [] → firstInvalid flashcards.length input [] = none →
      create_flashcard_interactively word flashcards b c (input :: rest) =
        some ((input.map (fun ch =>
            noteFor b c word (flashcards.getD (pyInt ch - 1) default))) ++
          [SEvent.appendDone word, SEvent.removePending word]) := by
    intro word flashcards b c rest input hne hv
    rw [create_flashcard_interactively, if_neg hne, if_pos hv]
  refine ⟨?_, fun _ _ _ _ _ => rfl, hvalid, ?_, ?_, by decide, by decide, ?_⟩
  · intro n input
    rw [firstInvalid_none_iff n input []]
    constructor
    · rintro ⟨hall, hnd, _⟩
      exact ⟨hall, (map_pyInt_nodup_iff (fun c hc => (hall c hc).1)).1 hnd⟩
    · rintro ⟨hall, hnd⟩
      exact ⟨hall, (map_pyInt_nodup_iff (fun c hc => (hall c hc).1)).2 hnd,
        fun c _ => List.not_mem_nil _⟩
  · intro b c word card
    constructor <;> intro h <;> simp [noteFor, h]
  · intro word f1 f2 b c rest
    have hlen : ([f1, f2] : List Flashcard).length = 2 := rfl
    have hv : firstInvalid ([f1, f2] : List Flashcard).length "21".toList [] = none := by
      rw [hlen]
      decide
    rw [hvalid word [f1, f2] b c rest "21".toList (by decide) hv]
    have h2 : pyInt '2' - 1 = 1 := by decide
    have h1 : pyInt '1' - 1 = 0 := by decide
    simp [h2, h1]
  · intro word f1 f2 b c rest
    have hlen : ([f1, f2] : List Flashcard).length = 2 := rfl
    constructor
    · rw [create_flashcard_interactively, if_neg (by decide : ¬("3".toList : List Char) = []),
        if_neg (show ¬ firstInvalid ([f1, f2] : List Flashcard).length "3".toList [] = none by
          rw [hlen]; decide)]
    · rw [create_flashcard_interactively, if_neg (by decide : ¬("11".toList : List Char) = []),
        if_neg (show ¬ firstInvalid ([f1, f2] : List Flashcard).length "11".toList [] = none by
          rw [hlen]; decide)]

theorem selector_validation_and_creation_witness :
    ("21".toList ≠ [] ∧
      firstInvalid ([⟨['s'], ['e']⟩, ⟨['t'], ['f']⟩] : List Flashcard).length
        "21".toList [] = none) ∧
    create_flashcard_interactively ['あ'] [⟨['s'], ['e']⟩, ⟨['t'], ['f']⟩] 5 7
        ["21".toList] =
      some [noteFor 5 7 ['あ'] ⟨['t'], ['f']⟩, noteFor 5 7 ['あ'] ⟨['s'], ['e']⟩,
        SEvent.appendDone ['あ'], SEvent.removePending ['あ']] :=
  ⟨⟨by decide, by decide⟩,
    selector_validation_and_creation.2.2.2.2.1 ['あ'] ⟨['s'], ['e']⟩ ⟨['t'], ['f']⟩ 5 7 []⟩

/-- C1: in the main loop trace over N (at least 1) pending words, every
submitted request targets an index below N; for each i with i + 1 < N the
events retrieve i, submit (i + 1) and review i occur exactly once each and
in exactly that order; and on every prefix of the trace the number of
submitted requests exceeds the number of retrieved results by at most one,
so at most one background request is ever in flight. -/
theorem prefetch_pipeline_ordering (N : Nat) (hN : 1 ≤ N) :
    (∀ j, PEvent.submit j ∈ main_trace N → j < N) ∧
    (∀ i, i + 1 < N →
      (main_trace N).filter (tripleP i) =
        [PEvent.retrieve i, PEvent.submit (i + 1), PEvent.review i]) ∧
    (∀ n, countSubmits ((main_trace N).take n) ≤
      countRetrieves ((main_trace N).take n) + 1) := by
  refine ⟨?_, ?_, ?_⟩
  · intro j hj
    rw [main_trace] at hj
    rcases List.mem_cons.1 hj with hj | hj
    · have hj0 : j = 0 := by simpa using hj
      omega
    · rcases submit_mem_run_loop _ hj with ⟨i, _, he, hlt⟩
      omega
  · intro i hi
    rw [main_trace, List.filter_cons]
    have h0 : tripleP i (PEvent.submit 0) = false := by
      simp [tripleP]
    rw [h0]
    simp only [Bool.false_eq_true, if_false]
    exact filter_triple_count_one hi _
      (List.count_eq_one_of_mem (List.nodup_range N) (List.mem_range.2 (by omega)))
  · intro n
    rcases n with _ | m
    · simp [countSubmits, countRetrieves]
    · rw [main_trace, List.take_succ_cons]
      have hrun := countS_le_countR_take (N := N) (List.range N) m
      simp [countSubmits, countRetrieves, List.countP_cons] at hrun ⊢
      omega

theorem prefetch_pipeline_ordering_witness :
    (1 ≤ 3 ∧ 0 + 1 < 3) ∧
    (main_trace 3).filter (tripleP 0) =
      [PEvent.retrieve 0, PEvent.submit 1, PEvent.review 0] :=
  ⟨⟨by decide, by decide⟩,
    (prefetch_pipeline_ordering 3 (by decide)).2.1 0 (by decide)⟩

/-- C9 as stated is false on the code: a pending file containing the single
line with trailing whitespace (the word followed by a space, then a
newline) is loaded as the two words [two-char word, empty]; skipping both
leaves the pending file unchanged rather than empty, because removal
compares each line's stripped content (which drops the trailing space)
against the loaded, unstripped word. -/
theorem all_skip_run_counterexample :
    (run_all_skip
        { pending := "a \n".toList, done := [], skipped := [], notes := [] }
        (load_pending_words "a \n".toList)).pending = "a \n".toList ∧
    "a \n".toList ≠ [] := by
  constructor
  · decide
  · decide

/-- C9 amended: when every loaded pending word equals its own stripped
form (no surrounding whitespace on any pending line), a run that skips
every word empties the pending file, leaves the done file and the
collection unchanged, and the skipped file — initially empty — ends with
exactly one line per loaded word, the words in their original order, N
lines in all; the empty user input produces exactly the two skip effects,
append to skipped then remove from pending. -/
theorem all_skip_run_clean (s done0 : List Char)
    (hclean : ∀ w ∈ load_pending_words s, pyStrip w = w) :
    (∀ (word : List Char) (flashcards : List Flashcard) (b c : Nat)
        (rest : List (List Char)),
      create_flashcard_interactively word flashcards b c ([] :: rest) =
        some [SEvent.appendSkipped word, SEvent.removePending word]) ∧
    (run_all_skip { pending := s, done := done0, skipped := [], notes := [] }
        (load_pending_words s)).pending = [] ∧
    (run_all_skip { pending := s, done := done0, skipped := [], notes := [] }
        (load_pending_words s)).done = done0 ∧
    (run_all_skip { pending := s, done := done0, skipped := [], notes := [] }
        (load_pending_words s)).notes = [] ∧
    pyReadlines ((run_all_skip { pending := s, done := done0, skipped := [], notes := [] }
        (load_pending_words s)).skipped) =
      (load_pending_words s).map (fun w => w ++ ['\n']) ∧
    (pyReadlines ((run_all_skip { pending := s, done := done0, skipped := [], notes := [] }
        (load_pending_words s)).skipped)).length =
      (load_pending_words s).length := by
  have hlines : ∀ l ∈ pyReadlines s, pyStrip l ∈ load_pending_words s := by
    intro l hl
    rw [pyReadlines_eq_linesOf] at hl
    rcases mem_linesOf hl with ⟨t, ht, hor⟩
    rcases hor with h | h
    · subst h
      rw [pyStrip_append_nl, hclean t ht]
      exact ht
    · subst h
      rw [hclean _ ht]
      exact ht
  have hpend : (load_pending_words s).foldl
      (fun acc w => remove_word_from_pending_file w acc) s = [] := by
    rw [← pyReadlines_nil_iff, pyReadlines_foldl_remove]
    apply List.filter_eq_nil_iff.2
    intro l hl
    simp [hlines l hl]
  have hsk : pyReadlines ((load_pending_words s).map (fun w => w ++ ['\n'])).flatten =
      (load_pending_words s).map (fun w => w ++ ['\n']) :=
    pyReadlines_flatten_words (fun w hw => not_nl_mem_of_mem_splitNl hw)
  rw [run_all_skip_eq]
  refine ⟨fun _ _ _ _ _ => rfl, hpend, rfl, rfl, ?_, ?_⟩
  · simpa using hsk
  · rw [show ((List.nil : List Char) ++
        ((load_pending_words s).map (fun w => w ++ ['\n'])).flatten) =
        ((load_pending_words s).map (fun w => w ++ ['\n'])).flatten from rfl, hsk]
    rw [List.length_map]

theorem all_skip_run_clean_witness :
    (∀ w ∈ load_pending_words "a\nb\n".toList, pyStrip w = w) ∧
    (run_all_skip
        { pending := "a\nb\n".toList, done := "d\n".toList, skipped := [], notes := [] }
        (load_pending_words "a\nb\n".toList)).pending = [] := by
  have hc : ∀ w ∈ load_pending_words "a\nb\n".toList, pyStrip w = w := by decide
  exact ⟨hc, (all_skip_run_clean "a\nb\n".toList "d\n".toList hc).2.1⟩
